import Mathlib

/-!
Verification of the `stats` repository: a Space-Saving / Stream-Summary
approximate top-k frequency counter (`stream_summary.StreamSummary`) driven by
an HTTP aggregation pipeline (`stats/stats.py`: `run`, `aggregate_stats`,
`furnish_request`, `display_stats`).

The functions of `stats/stats.py` are embedded directly from the source.
The `StreamSummary` engine itself lives in `stream_summary.py`, which is not
part of the available sources; it is modelled from the specification's
algorithm (§4.1) where needed.
-/

namespace Stats

/-! ## Embedding of `display_stats` (stats/stats.py, lines 127-145)

A `bucket_map` is a Python dict from frequency to a bucket holding an ordered
`items` list; dict iteration follows insertion order, so the map is embedded
as an association list `List (Nat × List α)` in insertion order.

`display_stats` reverses the key list, builds an iterator `topk_iter` over the
serial numbers `1..no_of_topk`, and runs a `for frequency, serial_no in
zip(frequencies, topk_iter)` loop whose body prints the first item of the
bucket unconditionally (`item = next(items_iter)` outside any `try`) and then
prints further items of the bucket while both iterators yield; exhaustion of
`topk_iter` inside the inner loop ends the whole display, exhaustion of the
bucket moves on to the next frequency. A bucket with an empty items list makes
the unguarded first `next` raise `StopIteration`, modelled as `none`. -/

/-- Inner `while True` loop of `display_stats`: the current item `i` with
serial `s` is about to be printed; `its` are the remaining items of the bucket
with frequency `f`, `ss` the remaining serial numbers. Returns the printed
`(serial, item, frequency)` triples and `some` remaining serials when the
bucket was exhausted (the outer loop continues), or `none` when the serials
ran out (the whole display stops). -/
def bucketRun (f : Nat) (i : α) (s : Nat) :
    List α → List Nat → List (Nat × α × Nat) × Option (List Nat)
  | [], ss => ([(s, i, f)], some ss)
  | _ :: _, [] => ([(s, i, f)], none)
  | i' :: its, s' :: ss =>
      let r := bucketRun f i' s' its ss
      ((s, i, f) :: r.1, r.2)

/-- Outer `for frequency, serial_no in zip(frequencies, topk_iter)` loop of
`display_stats`, over the (already reversed) bucket list and the remaining
serial numbers. `none` models the uncaught `StopIteration` raised by
`item = next(items_iter)` on an empty bucket. -/
def displayLoop : List (Nat × List α) → List Nat → Option (List (Nat × α × Nat))
  | [], _ => some []
  | _ :: _, [] => some []
  | (f, its) :: rest, s :: ss =>
    match its with
    | [] => none
    | i :: its' =>
      match bucketRun f i s its' ss with
      | (out, none) => some out
      | (out, some ss') => (displayLoop rest ss').map (out ++ ·)

/-- `display_stats(stream_summary, display_title, no_of_topk)` restricted to
its observable output: the ordered `(serial_no, item, frequency)` triples it
prints. `frequencies = list(bucket_map.keys()); frequencies.reverse()` is the
reversal of the association list; `topk_iter = iter(range(1, no_of_topk + 1))`
is `List.range' 1 n`. -/
def display_stats (bucket_map : List (Nat × List α)) (no_of_topk : Nat) :
    Option (List (Nat × α × Nat)) :=
  displayLoop bucket_map.reverse (List.range' 1 no_of_topk)

/-- All `(item, frequency)` pairs of a bucket list, in traversal order. -/
def flatItems (bm : List (Nat × List α)) : List (α × Nat) :=
  bm.flatMap (fun b => b.2.map (fun i => (i, b.1)))

/-- Total number of tracked items in a bucket map. -/
def trackedCount (bm : List (Nat × List α)) : Nat :=
  (bm.map (fun b => b.2.length)).sum

/-! ### Characterization of the traversal as a zip with the serial numbers -/

theorem zip_append_split (l : List γ) (A B : List δ) :
    l.zip (A ++ B) = (l.take A.length).zip A ++ (l.drop A.length).zip B := by
  induction A generalizing l with
  | nil => simp
  | cons a A ih =>
    cases l with
    | nil => simp
    | cons x l =>
      simp only [List.cons_append, List.zip_cons_cons, List.length_cons,
        List.take_succ_cons, List.drop_succ_cons, ih]

theorem zip_take_length (l : List γ) (A : List δ) :
    l.zip A = (l.take A.length).zip A := by
  have h := zip_append_split l A []
  simpa using h

/-- `bucketRun` prints the bucket's items zipped with the available serial
numbers and reports the leftover serials (or `none` if they ran out). -/
theorem bucketRun_eq (f : Nat) (i : α) (s : Nat) (its : List α) (ss : List Nat) :
    bucketRun f i s its ss =
      ((s :: ss).zip ((i :: its).map (fun j => (j, f))),
        if its.length ≤ ss.length then some (ss.drop its.length) else none) := by
  induction its generalizing i s ss with
  | nil => simp [bucketRun]
  | cons i' its ih =>
    cases ss with
    | nil => simp [bucketRun]
    | cons s' ss =>
      simp only [bucketRun, ih i' s' ss, List.map_cons, List.zip_cons_cons,
        List.length_cons, List.drop_succ_cons]
      simp [Nat.succ_le_succ_iff]

/-- When every bucket is non-empty, the whole outer loop prints exactly the
flattened `(item, frequency)` stream zipped with the serial numbers. -/
theorem displayLoop_eq_zip (bm : List (Nat × List α)) (serials : List Nat)
    (hne : ∀ b ∈ bm, b.2 ≠ []) :
    displayLoop bm serials = some (serials.zip (flatItems bm)) := by
  induction bm generalizing serials with
  | nil => cases serials <;> simp [displayLoop, flatItems]
  | cons b rest ih =>
    obtain ⟨f, its⟩ := b
    cases serials with
    | nil => simp [displayLoop, flatItems]
    | cons s ss =>
      have hits : its ≠ [] := hne (f, its) (by simp)
      obtain ⟨i, its', rfl⟩ := List.exists_cons_of_ne_nil hits
      have hflat : flatItems ((f, i :: its') :: rest) =
          (i :: its').map (fun j => (j, f)) ++ flatItems rest := by
        simp [flatItems]
      rw [hflat, zip_append_split]
      have hrest : ∀ b ∈ rest, b.2 ≠ [] := fun b hb => hne b (List.mem_cons_of_mem _ hb)
      have hA : ((i :: its').map (fun j => (j, f))).length = its'.length + 1 := by simp
      by_cases h : its'.length ≤ ss.length
      · have hbr := bucketRun_eq f i s its' ss
        rw [if_pos h] at hbr
        simp only [displayLoop, hbr, ih _ hrest, Option.map_some']
        rw [hA]
        have htake : (s :: ss).take (its'.length + 1) = s :: ss.take its'.length := by simp
        have hdrop : (s :: ss).drop (its'.length + 1) = ss.drop its'.length := by simp
        rw [htake, hdrop]
        congr 2
        rw [zip_take_length (s :: ss) ((i :: its').map (fun j => (j, f))), hA]
        simp
      · have hbr := bucketRun_eq f i s its' ss
        rw [if_neg h] at hbr
        simp only [displayLoop, hbr]
        rw [hA]
        have hlen : ss.length < its'.length := Nat.lt_of_not_le h
        have htake : (s :: ss).take (its'.length + 1) = s :: ss := by
          apply List.take_of_length_le
          simp; omega
        have hdrop : (s :: ss).drop (its'.length + 1) = [] := by
          apply List.drop_eq_nil_of_le
          simp; omega
        rw [htake, hdrop]
        simp

theorem map_fst_zip_take (l : List γ) (l' : List δ) :
    (l.zip l').map Prod.fst = l.take l'.length := by
  induction l generalizing l' with
  | nil => simp
  | cons x l ih =>
    cases l' with
    | nil => simp
    | cons y l' => simp [ih]

theorem map_snd_zip_take (l : List γ) (l' : List δ) :
    (l.zip l').map Prod.snd = l'.take l.length := by
  induction l generalizing l' with
  | nil => simp
  | cons x l ih =>
    cases l' with
    | nil => simp
    | cons y l' => simp [ih]

theorem range'_take (a n m : Nat) : (List.range' a n).take m = List.range' a (min m n) := by
  induction n generalizing a m with
  | zero => simp
  | succ n ih =>
    cases m with
    | zero => simp
    | succ m =>
      rw [List.range'_succ, List.take_succ_cons, ih, Nat.succ_min_succ, List.range'_succ]

theorem pairwise_ge_of_const (l : List γ) (g : γ → Nat) (c : Nat) (hg : ∀ x, g x = c) :
    (l.map g).Pairwise (· ≥ ·) := by
  induction l with
  | nil => simp
  | cons x l ih =>
    refine List.Pairwise.cons ?_ ih
    intro y hy
    rcases List.mem_map.1 hy with ⟨z, _, rfl⟩
    rw [hg z, hg x]

theorem mem_snd_flatItems {bm : List (Nat × List γ)} {y : Nat}
    (hy : y ∈ (flatItems bm).map Prod.snd) : y ∈ bm.map Prod.fst := by
  rcases List.mem_map.1 hy with ⟨⟨i, f⟩, hif, rfl⟩
  rcases List.mem_flatMap.1 hif with ⟨b, hb, hmem⟩
  rcases List.mem_map.1 hmem with ⟨j, _, hj⟩
  cases hj
  exact List.mem_map.2 ⟨b, hb, rfl⟩

/-- If bucket keys are strictly descending, the frequencies of the flattened
item stream are non-increasing. -/
theorem flatItems_snd_pairwise (bm : List (Nat × List γ))
    (hsort : (bm.map Prod.fst).Pairwise (· > ·)) :
    ((flatItems bm).map Prod.snd).Pairwise (· ≥ ·) := by
  induction bm with
  | nil => simp [flatItems]
  | cons b rest ih =>
    obtain ⟨f, its⟩ := b
    rw [List.map_cons] at hsort
    have hsort' := List.Pairwise.of_cons hsort
    have hhead : ∀ y ∈ rest.map Prod.fst, f > y := (List.pairwise_cons.1 hsort).1
    have hflat : flatItems ((f, its) :: rest) =
        its.map (fun i => (i, f)) ++ flatItems rest := by simp [flatItems]
    rw [hflat, List.map_append]
    refine List.pairwise_append.2 ⟨?_, ih hsort', ?_⟩
    · rw [List.map_map]
      exact pairwise_ge_of_const its _ f (fun x => rfl)
    · intro x hx y hy
      have hxf : x = f := by
        rcases List.mem_map.1 hx with ⟨p, hp, rfl⟩
        rcases List.mem_map.1 hp with ⟨j, _, rfl⟩
        rfl
      subst hxf
      exact Nat.le_of_lt (hhead y (mem_snd_flatItems hy))

/-- C2 ingredients: with every bucket non-empty, `display_stats` succeeds and
returns exactly the serial numbers `1..n` zipped with the flattened reversed
bucket stream. -/
theorem display_stats_eq_zip (bm : List (Nat × List α)) (n : Nat)
    (hne : ∀ b ∈ bm, b.2 ≠ []) :
    display_stats bm n = some ((List.range' 1 n).zip (flatItems bm.reverse)) := by
  unfold display_stats
  exact displayLoop_eq_zip bm.reverse (List.range' 1 n)
    (fun b hb => hne b (List.mem_reverse.1 hb))

theorem flatItems_length (bm : List (Nat × List α)) :
    (flatItems bm).length = trackedCount bm := by
  induction bm with
  | nil => simp [flatItems, trackedCount]
  | cons b rest ih => simp [flatItems, trackedCount] at ih ⊢; omega

theorem trackedCount_reverse (bm : List (Nat × List α)) :
    trackedCount bm.reverse = trackedCount bm := by
  unfold trackedCount
  rw [List.map_reverse, List.sum_reverse]

/-- C2: for every bucket map whose buckets are non-empty and whose keys are in
strictly ascending (insertion) order, `display_stats` emits exactly
`min n tracked-count` triples, namely the prefix of the descending-bucket,
arrival-ordered item stream, with ranks `1, 2, ...` increasing once per
emitted entry and never resetting, and with non-increasing frequencies
(truncation without tie-expansion). -/
theorem display_stats_topk_characterization (bm : List (Nat × List α)) (n : Nat)
    (hne : ∀ b ∈ bm, b.2 ≠ [])
    (hsort : (bm.map Prod.fst).Pairwise (· < ·)) :
    ∃ out, display_stats bm n = some out ∧
      out = (List.range' 1 n).zip (flatItems bm.reverse) ∧
      out.length = min n (trackedCount bm) ∧
      out.map Prod.fst = List.range' 1 out.length ∧
      (out.map (fun t => t.2.2)).Pairwise (· ≥ ·) := by
  refine ⟨(List.range' 1 n).zip (flatItems bm.reverse),
    display_stats_eq_zip bm n hne, rfl, ?_, ?_, ?_⟩
  · rw [List.length_zip, List.length_range', flatItems_length, trackedCount_reverse]
  · rw [map_fst_zip_take, List.length_zip, List.length_range', range'_take,
      flatItems_length, trackedCount_reverse, Nat.min_comm]
  · have h1 : ((List.range' 1 n).zip (flatItems bm.reverse)).map (fun t => t.2.2)
        = (((List.range' 1 n).zip (flatItems bm.reverse)).map Prod.snd).map Prod.snd := by
      rw [List.map_map]
      rfl
    rw [h1, map_snd_zip_take]
    have hdesc : (bm.reverse.map Prod.fst).Pairwise (· > ·) := by
      rw [List.map_reverse, List.pairwise_reverse]
      exact hsort.imp (fun h => h)
    have hp := flatItems_snd_pairwise bm.reverse hdesc
    have hsub : List.Sublist
        (((flatItems bm.reverse).take (List.range' 1 n).length).map Prod.snd)
        ((flatItems bm.reverse).map Prod.snd) :=
      (List.take_sublist _ _).map Prod.snd
    exact hp.sublist hsub

/-- Witness for the C2 theorem at the scenario-D state with `n = 3`. -/
theorem display_stats_topk_characterization_witness :
    ∃ out, display_stats [(1, [10, 20]), (3, [30]), (4, [40, 50])] 3 = some out ∧
      out = (List.range' 1 3).zip
        (flatItems ([(1, [10, 20]), (3, [30]), (4, [40, 50])] : List (Nat × List Nat)).reverse) ∧
      out.length = min 3 (trackedCount [(1, [10, 20]), (3, [30]), (4, [40, 50])]) ∧
      out.map Prod.fst = List.range' 1 out.length ∧
      (out.map (fun t => t.2.2)).Pairwise (· ≥ ·) :=
  display_stats_topk_characterization [(1, [10, 20]), (3, [30]), (4, [40, 50])] 3
    (by decide) (by decide)

/-- C3: on the scenario-D state (buckets `{1:[1,2], 2:[3], 3:[4,5,6], 4:[7],
5:[8,9]}` in insertion order), the top-5 extraction yields exactly the ranked
sequence `[(1,8,5),(2,9,5),(3,7,4),(4,4,3),(5,5,3)]`; item 6 is absent even
though `(6, 3)` is in the tracked stream with the same frequency as the rank-5
entry. -/
theorem display_stats_scenario_D :
    display_stats [(1, [1, 2]), (2, [3]), (3, [4, 5, 6]), (4, [7]), (5, [8, 9])] 5
        = some [(1, 8, 5), (2, 9, 5), (3, 7, 4), (4, 4, 3), (5, 5, 3)] ∧
      (∀ t ∈ [(1, 8, 5), (2, 9, 5), (3, 7, 4), (4, 4, 3), (5, 5, 3)],
        (t : Nat × Nat × Nat).2.1 ≠ 6) ∧
      ((6, 3) : Nat × Nat) ∈
        flatItems [(1, [1, 2]), (2, [3]), (3, [4, 5, 6]), (4, [7]), (5, [8, 9])] := by
  refine ⟨by rfl, by decide, by decide⟩

/-- The `stream_summary.StreamSummary` object as `display_stats` sees it: a
`capacity` and a `bucket_map` attribute. -/
structure StreamSummaryObj (α : Type) where
  capacity : Nat
  bucket_map : List (Nat × List α)

/-- `display_stats` as a state transformer on the summary object: the source
(lines 127-145) only reads `stream_summary.bucket_map` and its buckets' `items`
lists and never assigns to any of them, so the translated procedure returns the
object unchanged alongside its output. -/
def display_statsProc (s : StreamSummaryObj α) (n : Nat) :
    Option (List (Nat × α × Nat)) × StreamSummaryObj α :=
  (display_stats s.bucket_map n, s)

/-- C4: `display_stats` is pure and idempotent — two consecutive calls with no
intervening `observe` produce identical output, and neither call modifies the
summary object, its `bucket_map`, or any bucket's items. -/
theorem display_stats_pure_idempotent (s : StreamSummaryObj α) (n : Nat) :
    (display_statsProc s n).2 = s ∧
      (display_statsProc s n).2.bucket_map = s.bucket_map ∧
      (∀ b ∈ (display_statsProc s n).2.bucket_map, b ∈ s.bucket_map) ∧
      (display_statsProc ((display_statsProc s n).2) n).1 = (display_statsProc s n).1 := by
  exact ⟨rfl, rfl, fun b hb => hb, rfl⟩

/-- C10: whenever every bucket in the map has a non-empty items list,
`display_stats` terminates normally for every `n ≥ 0` — the unguarded first
`next()` on a bucket's item iterator never raises an uncaught
`StopIteration` (result is never `none`). -/
theorem display_stats_no_exception (bm : List (Nat × List α)) (n : Nat)
    (hne : ∀ b ∈ bm, b.2 ≠ []) :
    ∃ out, display_stats bm n = some out :=
  ⟨_, display_stats_eq_zip bm n hne⟩

/-- Witness for the C10 theorem at a concrete state. -/
theorem display_stats_no_exception_witness :
    ∃ out, display_stats [(2, [7]), (5, [8, 9])] 4 = some out :=
  display_stats_no_exception [(2, [7]), (5, [8, 9])] 4 (by decide)

/-! ## Embedding of the batch scheduling in `run` (stats/stats.py, lines 51-62)

`run` computes `batch_size = int((global_max_offset - global_min_offset + 1) /
max_threads)` (floor division on the configured offsets), bumps it to 1 when
zero, and submits one `aggregate_stats` task per `min_offset in
range(global_min_offset, global_max_offset + 1, batch_size)` with
`offset_upper_bound = min(min_offset + batch_size, global_max_offset + 1)`. -/

/-- `batch_size` as computed by `run` (lines 51-53). -/
def batch_size (gmin gmax threads : Nat) : Nat :=
  let b := (gmax - gmin + 1) / threads
  if b = 0 then 1 else b

/-- The list of `(min_offset, offset_upper_bound)` pairs submitted by the
`for min_offset in range(...)` loop (lines 57-62). The guard `0 < bs` mirrors
`range`'s requirement of a non-zero step. -/
def batchList (lo ub bs : Nat) : List (Nat × Nat) :=
  if _h : lo < ub ∧ 0 < bs then
    (lo, min (lo + bs) ub) :: batchList (lo + bs) ub bs
  else []
termination_by ub - lo
decreasing_by omega

/-- All batches submitted by `run` for the configured offset range. -/
def batches (gmin gmax threads : Nat) : List (Nat × Nat) :=
  batchList gmin (gmax + 1) (batch_size gmin gmax threads)

theorem batchList_bounds (lo ub bs : Nat) :
    ∀ b ∈ batchList lo ub bs, lo ≤ b.1 ∧ b.1 < b.2 ∧ b.2 ≤ ub := by
  induction lo, ub, bs using batchList.induct with
  | case1 lo ub bs h ih =>
    rw [batchList, dif_pos h]
    intro b hb
    rcases List.mem_cons.1 hb with rfl | hb
    · refine ⟨Nat.le_refl _, ?_, Nat.min_le_right _ _⟩
      simp only
      omega
    · have := ih b hb
      omega
  | case2 lo ub bs h =>
    rw [batchList, dif_neg h]
    intro b hb
    exact absurd hb (List.not_mem_nil b)

theorem batchList_countP (lo ub bs x : Nat) (hbs : 0 < bs) :
    (batchList lo ub bs).countP (fun b => decide (b.1 ≤ x) && decide (x < b.2))
      = if lo ≤ x ∧ x < ub then 1 else 0 := by
  induction lo, ub, bs using batchList.induct with
  | case1 lo ub bs h ih =>
    rw [batchList, dif_pos h, List.countP_cons, ih hbs]
    simp only [decide_eq_true_eq, Bool.and_eq_true]
    split_ifs <;> omega
  | case2 lo ub bs h =>
    rw [batchList, dif_neg h, List.countP_nil]
    have : ¬ (lo < ub) := by
      intro hlt
      exact h ⟨hlt, hbs⟩
    rw [if_neg (by omega)]

/-- C8: with `global_min_offset ≤ global_max_offset` and `max_threads ≥ 1`,
the batches submitted by `run` partition `[global_min_offset,
global_max_offset + 1)`: `batch_size ≥ 1`, every batch is non-empty and stops
at `global_max_offset + 1`, and every offset of the full range lies in exactly
one submitted batch. -/
theorem run_batches_partition (gmin gmax threads : Nat)
    (hrange : gmin ≤ gmax) (hthreads : 1 ≤ threads) :
    1 ≤ batch_size gmin gmax threads ∧
      (∀ b ∈ batches gmin gmax threads, gmin ≤ b.1 ∧ b.1 < b.2 ∧ b.2 ≤ gmax + 1) ∧
      (∀ x, (gmin ≤ x ∧ x < gmax + 1) ↔
        (batches gmin gmax threads).countP
          (fun b => decide (b.1 ≤ x) && decide (x < b.2)) = 1) := by
  have hbs : 1 ≤ batch_size gmin gmax threads := by
    unfold batch_size
    simp only
    split_ifs with h
    · exact Nat.le_refl 1
    · exact Nat.pos_of_ne_zero h
  refine ⟨hbs, batchList_bounds _ _ _, fun x => ?_⟩
  rw [batches, batchList_countP _ _ _ _ hbs]
  split_ifs with h
  · simp [h]
  · simpa using h

/-- Witness for the C8 theorem at `gmin = 0`, `gmax = 10`, `threads = 4`. -/
theorem run_batches_partition_witness :
    (0 ≤ 10 ∧ 1 ≤ 4) ∧
      (1 ≤ batch_size 0 10 4 ∧
        (∀ b ∈ batches 0 10 4, 0 ≤ b.1 ∧ b.1 < b.2 ∧ b.2 ≤ 10 + 1) ∧
        (∀ x, (0 ≤ x ∧ x < 10 + 1) ↔
          (batches 0 10 4).countP
            (fun b => decide (b.1 ≤ x) && decide (x < b.2)) = 1)) :=
  ⟨⟨by decide, by decide⟩, run_batches_partition 0 10 4 (by decide) (by decide)⟩

/-! ## Embedding of `furnish_request` (stats/stats.py, lines 101-124) -/

/-- A food record of the REST response: a dict carrying `food_id` and
`food_category_id`, as consumed by `aggregate_stats` (lines 91-93). -/
structure Food where
  food_id : Nat
  food_category_id : Nat
deriving DecidableEq, Repr

/-- The parsed state of an HTTP response body as `furnish_request` probes it:
`res.json()` raises `ValueError` on a non-JSON body; a parsed non-dict value
makes `res_body['response']` raise `TypeError`; a dict either lacks the
`'response'` key (a `KeyError`, uncaught) or holds a response array. -/
inductive Body where
  | invalidJson
  | nonDict
  | dict (response : Option (List Food))
deriving DecidableEq

/-- An HTTP response as observed by `furnish_request`. -/
structure HttpResponse where
  status_code : Nat
  body : Body
deriving DecidableEq

/-- Exceptions escaping one call of the undecorated `furnish_request` body:
`RequestError` (non-200 status, line 123, carrying endpoint/offset/limit) or
`KeyError` (dict body without `'response'`, line 115, not caught by the
`(ValueError, TypeError)` handler). -/
inductive FetchError where
  | requestError (endpoint : String) (offset limit : Nat)
  | keyError
deriving DecidableEq

/-- One call of the `furnish_request` body without the retry decorator
(lines 110-124): `foods = []`; on status 200 a JSON dict's truthy
`'response'` value replaces `foods`; `ValueError`/`TypeError` are swallowed;
a non-200 status raises `RequestError`. -/
def furnish_request_once (endpoint : String) (offset limit : Nat)
    (res : HttpResponse) : Except FetchError (List Food) :=
  if res.status_code = 200 then
    match res.body with
    | .invalidJson => .ok []
    | .nonDict => .ok []
    | .dict none => .error .keyError
    | .dict (some v) => if v ≠ [] then .ok v else .ok []
  else
    .error (.requestError endpoint offset limit)

/-- Modelled from the spec: the `retry` decorator of the external `retry`
library (not part of the sources), applied as `@retry(RequestError, tries=5,
delay=1, backoff=2)` on line 106 — "transient failures are retried with
exponential backoff up to a fixed attempt budget". Run the attempt; when it
raises the retried exception and further tries remain, sleep the current
delay, multiply it by the backoff factor and try again; after the last try
the exception propagates; other exceptions propagate immediately. Returns the
result together with the list of delays slept. -/
def retryCall (attempt : Nat → Except FetchError (List Food)) :
    Nat → Nat → Nat → Nat → Except FetchError (List Food) × List Nat
  | 0, _, _, k => (attempt k, [])
  | 1, _, _, k => (attempt k, [])
  | tries + 2, delay, backoff, k =>
    match attempt k with
    | .ok v => (.ok v, [])
    | .error (.requestError _ _ _) =>
      let r := retryCall attempt (tries + 1) (delay * backoff) backoff (k + 1)
      (r.1, delay :: r.2)
    | .error .keyError => (.error .keyError, [])

/-- The decorated `furnish_request`, fed by the sequence of HTTP responses the
server returns to the successive attempts. -/
def furnish_request (endpoint : String) (offset limit : Nat)
    (responses : Nat → HttpResponse) : Except FetchError (List Food) × List Nat :=
  retryCall (fun k => furnish_request_once endpoint offset limit (responses k)) 5 1 2 0

/-- C6: one `furnish_request` body raises `RequestError` exactly when the
status code is not 200; and when every attempt sees a non-200 response, the
retry wrapper makes exactly 5 attempts, sleeping the exponentially growing
delays `[1, 2, 4, 8]` (initial delay 1, doubling each time), and then lets the
`RequestError` propagate. -/
theorem furnish_request_raises_iff_non_200 (endpoint : String) (offset limit : Nat)
    (responses : Nat → HttpResponse) :
    (∀ res : HttpResponse,
      furnish_request_once endpoint offset limit res
          = .error (.requestError endpoint offset limit)
        ↔ res.status_code ≠ 200) ∧
    ((∀ k, k < 5 → (responses k).status_code ≠ 200) →
      furnish_request endpoint offset limit responses
        = (.error (.requestError endpoint offset limit), [1, 2, 4, 8])) := by
  constructor
  · intro res
    constructor
    · intro h h200
      rw [furnish_request_once, if_pos h200] at h
      rcases hb : res.body with _ | _ | v
      · rw [hb] at h; exact absurd h (by simp)
      · rw [hb] at h; exact absurd h (by simp)
      · rcases v with _ | v
        · rw [hb] at h; exact absurd h (by simp)
        · rw [hb] at h
          by_cases hv : v = [] <;> simp [hv] at h
    · intro h200
      rw [furnish_request_once, if_neg h200]
  · intro hfail
    have e0 := (by
      rw [furnish_request_once, if_neg (hfail 0 (by omega))] :
      furnish_request_once endpoint offset limit (responses 0)
        = .error (.requestError endpoint offset limit))
    have e1 := (by
      rw [furnish_request_once, if_neg (hfail 1 (by omega))] :
      furnish_request_once endpoint offset limit (responses 1)
        = .error (.requestError endpoint offset limit))
    have e2 := (by
      rw [furnish_request_once, if_neg (hfail 2 (by omega))] :
      furnish_request_once endpoint offset limit (responses 2)
        = .error (.requestError endpoint offset limit))
    have e3 := (by
      rw [furnish_request_once, if_neg (hfail 3 (by omega))] :
      furnish_request_once endpoint offset limit (responses 3)
        = .error (.requestError endpoint offset limit))
    have e4 := (by
      rw [furnish_request_once, if_neg (hfail 4 (by omega))] :
      furnish_request_once endpoint offset limit (responses 4)
        = .error (.requestError endpoint offset limit))
    simp [furnish_request, retryCall, e0, e1, e2, e3, e4]

/-- Witness for the C6 theorem: a server answering 503 to every attempt. -/
theorem furnish_request_raises_iff_non_200_witness :
    furnish_request "ep" 10 10 (fun _ => ⟨503, Body.invalidJson⟩)
      = (.error (.requestError "ep" 10 10), [1, 2, 4, 8]) :=
  (furnish_request_raises_iff_non_200 "ep" 10 10 (fun _ => ⟨503, Body.invalidJson⟩)).2
    (fun k _ => by decide)

/-- C9: a 200 response whose body is invalid JSON or parses to a non-dict
yields the empty list without raising; a 200 dict body whose `'response'`
value is truthy yields that value. -/
theorem furnish_request_body_handling (endpoint : String) (offset limit : Nat) :
    (∀ res : HttpResponse, res.status_code = 200 →
      (res.body = .invalidJson ∨ res.body = .nonDict) →
      furnish_request_once endpoint offset limit res = .ok []) ∧
    (∀ v : List Food, v ≠ [] →
      furnish_request_once endpoint offset limit ⟨200, .dict (some v)⟩ = .ok v) := by
  constructor
  · intro res h200 hbody
    rw [furnish_request_once, if_pos h200]
    rcases hbody with h | h <;> rw [h]
  · intro v hv
    rw [furnish_request_once, if_pos rfl]
    simp [hv]

/-- Witness for the C9 theorem: a 200 non-JSON body gives `[]`, a 200 dict
body with a non-empty `'response'` array gives that array. -/
theorem furnish_request_body_handling_witness :
    furnish_request_once "ep" 10 10 ⟨200, Body.invalidJson⟩ = .ok [] ∧
      furnish_request_once "ep" 10 10 ⟨200, Body.dict (some [⟨1, 2⟩])⟩ = .ok [⟨1, 2⟩] :=
  ⟨(furnish_request_body_handling "ep" 10 10).1 ⟨200, Body.invalidJson⟩ rfl (Or.inl rfl),
    (furnish_request_body_handling "ep" 10 10).2 [⟨1, 2⟩] (by decide)⟩

/-! ## The Stream-Summary engine, modelled from the spec

`stats/stats.py` imports `StreamSummary` from `stream_summary.py`, whose
source is not among the available files — only its callers and tests are. The
engine is therefore modelled from the specification (§3, §4.1): buckets keyed
by count and kept in ascending key order, each bucket a non-empty
arrival-ordered entry list (oldest first), an entry carrying its identifier
and error bound (its count being the key of the bucket holding it), and
`add`/`observe` implementing the three cases of §4.1. -/

/-- Modelled from the spec: a counter entry (§3) minus its count, which is
the key of the bucket holding it. -/
structure SSEntry where
  id : Nat
  error : Nat
deriving DecidableEq, Repr

/-- Modelled from the spec: the Stream-Summary state (§3). -/
structure StreamSummary where
  capacity : Nat
  buckets : List (Nat × List SSEntry)
deriving DecidableEq, Repr

/-- All `(count, entry)` pairs, in bucket order. -/
def entriesWithCount (bs : List (Nat × List SSEntry)) : List (Nat × SSEntry) :=
  bs.flatMap (fun b => b.2.map (fun e => (b.1, e)))

/-- All tracked identifiers. -/
def allIds (bs : List (Nat × List SSEntry)) : List Nat :=
  (entriesWithCount bs).map (fun p => p.2.id)

/-- Bucket keys, in order. -/
def keys (bs : List (Nat × List SSEntry)) : List Nat := bs.map Prod.fst

/-- Number of tracked entries. -/
def bucketsSize (bs : List (Nat × List SSEntry)) : Nat :=
  (bs.map (fun b => b.2.length)).sum

/-- The minimal count among the buckets (the head key, the list being kept in
ascending order); 0 for the empty summary. -/
def minCount (bs : List (Nat × List SSEntry)) : Nat :=
  match bs with
  | [] => 0
  | b :: _ => b.1

/-- The index lookup: the bucket key and entry of a tracked identifier. -/
def findEntry (bs : List (Nat × List SSEntry)) (x : Nat) : Option (Nat × SSEntry) :=
  match bs with
  | [] => none
  | (c, es) :: rest =>
    match es.find? (fun e => e.id == x) with
    | some e => some (c, e)
    | none => findEntry rest x

/-- Append entry `e` at the tail of bucket `c`, creating the bucket at its
ascending position when absent. -/
def insertEntry : List (Nat × List SSEntry) → Nat → SSEntry → List (Nat × List SSEntry)
  | [], c, e => [(c, [e])]
  | (c', es) :: rest, c, e =>
    if c < c' then (c, [e]) :: (c', es) :: rest
    else if c = c' then (c', es ++ [e]) :: rest
    else (c', es) :: insertEntry rest c e

/-- Remove the identifier's entry from its bucket, deleting the bucket when it
empties. -/
def removeEntry : List (Nat × List SSEntry) → Nat → List (Nat × List SSEntry)
  | [], _ => []
  | (c, es) :: rest, x =>
    if es.any (fun e => e.id == x) then
      match es.filter (fun e => e.id != x) with
      | [] => rest
      | e' :: es' => (c, e' :: es') :: rest
    else (c, es) :: removeEntry rest x

/-- Modelled from the spec: `observe` (§4.1). Case (a): a tracked identifier
moves from bucket `c` to the tail of bucket `c + 1`, error unchanged. Case
(b): below capacity, a new entry `(count = 1, error = 0)` joins bucket 1.
Case (c): at capacity, the oldest-arrival entry of the minimal bucket is
evicted (head of the head bucket) and the new identifier enters bucket
`m + 1` with error `m`. -/
def StreamSummary.add (s : StreamSummary) (x : Nat) : StreamSummary :=
  match findEntry s.buckets x with
  | some (c, e) => ⟨s.capacity, insertEntry (removeEntry s.buckets x) (c + 1) e⟩
  | none =>
    if bucketsSize s.buckets < s.capacity then
      ⟨s.capacity, insertEntry s.buckets 1 ⟨x, 0⟩⟩
    else
      match s.buckets with
      | [] => s
      | (m, es0) :: rest =>
        let buckets' := match es0.tail with
          | [] => rest
          | e' :: es' => (m, e' :: es') :: rest
        ⟨s.capacity, insertEntry buckets' (m + 1) ⟨x, m⟩⟩

/-- A fresh summary of the given capacity processing a whole observation
sequence. -/
def process (cap : Nat) (xs : List Nat) : StreamSummary :=
  xs.foldl StreamSummary.add ⟨cap, []⟩

/-! ### Structural lemmas about the bucket operations -/

@[simp] theorem keys_nil : keys [] = [] := rfl

@[simp] theorem keys_cons (b : Nat × List SSEntry) (l : List (Nat × List SSEntry)) :
    keys (b :: l) = b.1 :: keys l := rfl

@[simp] theorem entriesWithCount_nil : entriesWithCount [] = [] := rfl

@[simp] theorem entriesWithCount_cons (b : Nat × List SSEntry)
    (l : List (Nat × List SSEntry)) :
    entriesWithCount (b :: l) = b.2.map (fun e => (b.1, e)) ++ entriesWithCount l := by
  simp [entriesWithCount]

theorem entriesWithCount_insertEntry (bs : List (Nat × List SSEntry)) (c : Nat) (e : SSEntry) :
    (entriesWithCount (insertEntry bs c e)).Perm ((c, e) :: entriesWithCount bs) := by
  induction bs with
  | nil => simp [insertEntry]
  | cons b rest ih =>
    obtain ⟨c', es⟩ := b
    rw [insertEntry]
    split_ifs with h1 h2
    · simp
    · subst h2
      simp only [entriesWithCount_cons, List.map_append, List.map_cons, List.map_nil]
      rw [List.append_assoc]
      exact List.perm_middle.trans (List.Perm.refl _)
    · simp only [entriesWithCount_cons]
      refine (ih.append_left _).trans ?_
      exact List.perm_middle

theorem mem_keys_insertEntry {bs : List (Nat × List SSEntry)} {c k : Nat} {e : SSEntry}
    (h : k ∈ keys (insertEntry bs c e)) : k = c ∨ k ∈ keys bs := by
  induction bs with
  | nil =>
    rw [insertEntry] at h
    simp at h
    exact Or.inl h
  | cons b rest ih =>
    obtain ⟨c', es⟩ := b
    rw [insertEntry] at h
    split_ifs at h with h1 h2
    · simp at h ⊢
      tauto
    · subst h2
      simp at h ⊢
      tauto
    · simp at h ⊢
      rcases h with h | h
      · tauto
      · rcases ih h with h' | h' <;> tauto

theorem keys_insertEntry_pairwise {bs : List (Nat × List SSEntry)} {c : Nat} (e : SSEntry)
    (hs : (keys bs).Pairwise (· < ·)) :
    (keys (insertEntry bs c e)).Pairwise (· < ·) := by
  induction bs with
  | nil => simp [insertEntry]
  | cons b rest ih =>
    obtain ⟨c', es⟩ := b
    rw [insertEntry]
    rw [keys_cons, List.pairwise_cons] at hs
    obtain ⟨hlt, hrest⟩ := hs
    split_ifs with h1 h2
    · rw [keys_cons, keys_cons]
      refine List.Pairwise.cons ?_ (List.Pairwise.cons hlt hrest)
      intro k hk
      rw [List.mem_cons] at hk
      rcases hk with rfl | hk
      · exact h1
      · exact Nat.lt_trans h1 (hlt k hk)
    · subst h2
      rw [keys_cons]
      exact List.Pairwise.cons hlt hrest
    · rw [keys_cons]
      refine List.Pairwise.cons ?_ (ih hrest)
      intro k hk
      rcases mem_keys_insertEntry hk with rfl | hk
      · omega
      · exact hlt k hk

theorem nonempty_insertEntry {bs : List (Nat × List SSEntry)} {c : Nat} {e : SSEntry}
    (hne : ∀ b ∈ bs, b.2 ≠ []) : ∀ b ∈ insertEntry bs c e, b.2 ≠ [] := by
  induction bs with
  | nil =>
    rw [insertEntry]
    intro b hb
    simp at hb
    subst hb
    simp
  | cons b' rest ih =>
    obtain ⟨c', es⟩ := b'
    rw [insertEntry]
    have hne' : ∀ b ∈ rest, b.2 ≠ [] := fun b hb => hne b (List.mem_cons_of_mem _ hb)
    split_ifs with h1 h2
    · intro b hb
      rcases List.mem_cons.1 hb with rfl | hb
      · simp
      · exact hne b hb
    · subst h2
      intro b hb
      rcases List.mem_cons.1 hb with rfl | hb
      · simp
      · exact hne' b hb
    · intro b hb
      rcases List.mem_cons.1 hb with rfl | hb
      · exact hne _ (List.mem_cons_self _ _)
      · exact ih hne' b hb

theorem keys_lower_insertEntry {bs : List (Nat × List SSEntry)} {c m : Nat} {e : SSEntry}
    (hlow : ∀ k ∈ keys bs, m ≤ k) (hc : m ≤ c) :
    ∀ k ∈ keys (insertEntry bs c e), m ≤ k := by
  intro k hk
  rcases mem_keys_insertEntry hk with rfl | hk
  · exact hc
  · exact hlow k hk

theorem keys_removeEntry_sublist (bs : List (Nat × List SSEntry)) (x : Nat) :
    List.Sublist (keys (removeEntry bs x)) (keys bs) := by
  induction bs with
  | nil => exact List.Sublist.refl _
  | cons b rest ih =>
    obtain ⟨c, es⟩ := b
    rw [removeEntry]
    split_ifs with h1
    · cases hf : es.filter (fun e => e.id != x) with
      | nil =>
        show List.Sublist (keys rest) (keys ((c, es) :: rest))
        rw [keys_cons]
        exact List.sublist_cons_self _ _
      | cons e' es' =>
        show List.Sublist (keys ((c, e' :: es') :: rest)) (keys ((c, es) :: rest))
        rw [keys_cons, keys_cons]
    · rw [keys_cons, keys_cons]
      exact ih.cons₂ c

@[simp] theorem allIds_nil : allIds [] = [] := rfl

@[simp] theorem allIds_cons (c : Nat) (es : List SSEntry) (rest : List (Nat × List SSEntry)) :
    allIds ((c, es) :: rest) = es.map SSEntry.id ++ allIds rest := by
  simp [allIds, List.map_map]

theorem find?_id_eq {es : List SSEntry} {x : Nat} {e : SSEntry}
    (h : es.find? (fun e' => e'.id == x) = some e) : e.id = x := by
  have := List.find?_some h
  simpa using this

theorem self_perm_cons_filter (es : List SSEntry) (x : Nat) (e : SSEntry)
    (hfind : es.find? (fun e' => e'.id == x) = some e)
    (hnd : (es.map SSEntry.id).Nodup) :
    es.Perm (e :: es.filter (fun e' => e'.id != x)) := by
  induction es with
  | nil => simp at hfind
  | cons a es ih =>
    rw [List.map_cons, List.nodup_cons] at hnd
    obtain ⟨hna, hnd'⟩ := hnd
    rw [List.find?_cons] at hfind
    cases hpa : (a.id == x) with
    | true =>
      rw [hpa] at hfind
      have hae : a = e := by simpa using hfind
      subst hae
      have hax : a.id = x := by simpa using hpa
      have hfil : es.filter (fun e' => e'.id != x) = es := by
        apply List.filter_eq_self.2
        intro b hb
        have hbx : b.id ≠ x := by
          intro hbx
          exact hna (hax ▸ hbx ▸ List.mem_map_of_mem SSEntry.id hb)
        simpa using hbx
      rw [List.filter_cons]
      have : ((a.id != x) : Bool) = false := by simp [hax]
      rw [this]
      rw [hfil]
      simp
    | false =>
      rw [hpa] at hfind
      have hax : a.id ≠ x := by simpa using hpa
      rw [List.filter_cons]
      have : ((a.id != x) : Bool) = true := by simpa using hax
      rw [this]
      exact (List.Perm.cons a (ih hfind hnd')).trans (List.Perm.swap e a _)

theorem entriesWithCount_removeEntry {bs : List (Nat × List SSEntry)} {x c : Nat}
    {e : SSEntry} (hfind : findEntry bs x = some (c, e)) (hnd : (allIds bs).Nodup) :
    (entriesWithCount bs).Perm ((c, e) :: entriesWithCount (removeEntry bs x)) := by
  induction bs with
  | nil => simp [findEntry] at hfind
  | cons b rest ih =>
    obtain ⟨c', es⟩ := b
    rw [allIds_cons, List.nodup_append] at hnd
    obtain ⟨hnes, hnrest, hdisj⟩ := hnd
    rw [findEntry] at hfind
    cases hf : es.find? (fun e' => e'.id == x) with
    | some e0 =>
      rw [hf] at hfind
      have hc : c = c' := by
        injection hfind with h'
        exact (congrArg Prod.fst h').symm
      have he : e = e0 := by
        injection hfind with h'
        exact (congrArg Prod.snd h').symm
      subst hc
      subst he
      have hany : es.any (fun e' => e'.id == x) = true := by
        have hmem := List.mem_of_find?_eq_some hf
        have hp := List.find?_some hf
        exact List.any_eq_true.2 ⟨e, hmem, hp⟩
      have hperm : es.Perm (e :: es.filter (fun e' => e'.id != x)) :=
        self_perm_cons_filter es x e hf hnes
      have hErm : entriesWithCount (removeEntry ((c, es) :: rest) x)
          = (es.filter (fun e' => e'.id != x)).map (fun e' => (c, e'))
            ++ entriesWithCount rest := by
        rw [removeEntry, if_pos hany]
        cases hflt : es.filter (fun e' => e'.id != x) with
        | nil => simp
        | cons a' as' => simp
      rw [hErm, entriesWithCount_cons]
      refine (List.Perm.append_right _ (hperm.map _)).trans ?_
      simp
    | none =>
      rw [hf] at hfind
      have hany : es.any (fun e' => e'.id == x) = false := by
        rw [List.any_eq_false]
        intro e' he'
        have := List.find?_eq_none.1 hf e' he'
        simpa using this
      rw [removeEntry, if_neg (by rw [hany]; exact Bool.false_ne_true)]
      rw [entriesWithCount_cons, entriesWithCount_cons]
      refine (List.Perm.append_left _ (ih hfind hnrest)).trans ?_
      exact List.perm_middle

theorem bucketsSize_eq_length (bs : List (Nat × List SSEntry)) :
    bucketsSize bs = (entriesWithCount bs).length := by
  induction bs with
  | nil => rfl
  | cons b rest ih =>
    obtain ⟨c, es⟩ := b
    simp [bucketsSize, entriesWithCount_cons] at ih ⊢
    omega

theorem findEntry_eq_none_iff (bs : List (Nat × List SSEntry)) (x : Nat) :
    findEntry bs x = none ↔ x ∉ allIds bs := by
  induction bs with
  | nil => simp [findEntry]
  | cons b rest ih =>
    obtain ⟨c, es⟩ := b
    rw [findEntry, allIds_cons]
    cases hf : es.find? (fun e' => e'.id == x) with
    | some e0 =>
      have hid : e0.id = x := find?_id_eq hf
      have hmem : x ∈ es.map SSEntry.id :=
        hid ▸ List.mem_map_of_mem SSEntry.id (List.mem_of_find?_eq_some hf)
      constructor
      · intro h
        exact absurd h (by simp)
      · intro h
        exact absurd (List.mem_append.2 (Or.inl hmem)) h
    | none =>
      have hnotin : x ∉ es.map SSEntry.id := by
        intro hx
        rcases List.mem_map.1 hx with ⟨e', he', hid⟩
        have := List.find?_eq_none.1 hf e' he'
        simp [hid] at this
      constructor
      · intro h hx
        rcases List.mem_append.1 hx with hx | hx
        · exact hnotin hx
        · exact (ih.1 h) hx
      · intro h
        exact ih.2 (fun hx => h (List.mem_append.2 (Or.inr hx)))

theorem findEntry_some_mem {bs : List (Nat × List SSEntry)} {x c : Nat} {e : SSEntry}
    (h : findEntry bs x = some (c, e)) :
    (c, e) ∈ entriesWithCount bs ∧ e.id = x := by
  induction bs with
  | nil => simp [findEntry] at h
  | cons b rest ih =>
    obtain ⟨c', es⟩ := b
    rw [findEntry] at h
    cases hf : es.find? (fun e' => e'.id == x) with
    | some e0 =>
      rw [hf] at h
      have hc : c = c' := by
        injection h with h'
        exact (congrArg Prod.fst h').symm
      have he : e = e0 := by
        injection h with h'
        exact (congrArg Prod.snd h').symm
      subst hc
      subst he
      refine ⟨?_, find?_id_eq hf⟩
      rw [entriesWithCount_cons]
      exact List.mem_append.2
        (Or.inl (List.mem_map_of_mem _ (List.mem_of_find?_eq_some hf)))
    | none =>
      rw [hf] at h
      obtain ⟨hmem, hid⟩ := ih h
      refine ⟨?_, hid⟩
      rw [entriesWithCount_cons]
      exact List.mem_append.2 (Or.inr hmem)

theorem key_mem_of_entry_mem {bs : List (Nat × List SSEntry)} {c : Nat} {e : SSEntry}
    (h : (c, e) ∈ entriesWithCount bs) : c ∈ keys bs := by
  induction bs with
  | nil => simp at h
  | cons b rest ih =>
    obtain ⟨c', es⟩ := b
    rw [entriesWithCount_cons] at h
    rw [keys_cons]
    rcases List.mem_append.1 h with h | h
    · rcases List.mem_map.1 h with ⟨e', _, he'⟩
      have : c' = c := congrArg Prod.fst he'
      exact this ▸ List.mem_cons_self _ _
    · exact List.mem_cons_of_mem _ (ih h)

theorem minCount_le_keys {bs : List (Nat × List SSEntry)}
    (hs : (keys bs).Pairwise (· < ·)) : ∀ k ∈ keys bs, minCount bs ≤ k := by
  cases bs with
  | nil => intro k hk; simp at hk
  | cons b rest =>
    intro k hk
    rw [keys_cons, List.pairwise_cons] at hs
    rw [keys_cons, List.mem_cons] at hk
    rcases hk with rfl | hk
    · exact Nat.le_refl _
    · exact Nat.le_of_lt (hs.1 k hk)

theorem le_minCount_of_keys {bs : List (Nat × List SSEntry)} {m : Nat}
    (hne : bs ≠ []) (h : ∀ k ∈ keys bs, m ≤ k) : m ≤ minCount bs := by
  cases bs with
  | nil => exact absurd rfl hne
  | cons b rest =>
    exact h b.1 (by rw [keys_cons]; exact List.mem_cons_self _ _)

theorem insertEntry_ne_nil (bs : List (Nat × List SSEntry)) (c : Nat) (e : SSEntry) :
    insertEntry bs c e ≠ [] := by
  cases bs with
  | nil => simp [insertEntry]
  | cons b rest =>
    obtain ⟨c', es⟩ := b
    rw [insertEntry]
    split_ifs <;> simp

theorem nonempty_removeEntry {bs : List (Nat × List SSEntry)} {x : Nat}
    (hne : ∀ b ∈ bs, b.2 ≠ []) : ∀ b ∈ removeEntry bs x, b.2 ≠ [] := by
  induction bs with
  | nil => simp [removeEntry]
  | cons b' rest ih =>
    obtain ⟨c, es⟩ := b'
    rw [removeEntry]
    have hne' : ∀ b ∈ rest, b.2 ≠ [] := fun b hb => hne b (List.mem_cons_of_mem _ hb)
    split_ifs with h1
    · cases hf : es.filter (fun e => e.id != x) with
      | nil => exact hne'
      | cons e' es' =>
        intro b hb
        rcases List.mem_cons.1 hb with rfl | hb
        · simp
        · exact hne' b hb
    · intro b hb
      rcases List.mem_cons.1 hb with rfl | hb
      · exact hne _ (List.mem_cons_self _ _)
      · exact ih hne' b hb

/-! ### The Space-Saving invariant -/

theorem allIds_eq_map (bs : List (Nat × List SSEntry)) :
    allIds bs = (entriesWithCount bs).map (fun p => p.2.id) := rfl

theorem count_append_single (xs : List Nat) (x y : Nat) :
    (xs ++ [x]).count y = xs.count y + (if y = x then 1 else 0) := by
  rw [List.count_append]
  by_cases h : y = x <;> simp [h, List.count_cons, List.count_nil]

/-- Well-formedness of the bucket structure (§3, §4.2): strictly ascending
keys, non-empty buckets, globally distinct identifiers, counts ≥ 1. -/
def WF (s : StreamSummary) : Prop :=
  (keys s.buckets).Pairwise (· < ·) ∧
  (∀ b ∈ s.buckets, b.2 ≠ []) ∧
  (allIds s.buckets).Nodup ∧
  (∀ k ∈ keys s.buckets, 1 ≤ k)

/-- The Space-Saving invariant tying a state to the observation sequence that
produced it: bounded size; while below capacity every observed identifier is
still tracked; every tracked entry over- and under-estimates its true count
within its error; every untracked identifier's true count is at most the
minimal tracked count. -/
def Inv (xs : List Nat) (s : StreamSummary) : Prop :=
  WF s ∧
  bucketsSize s.buckets ≤ s.capacity ∧
  (bucketsSize s.buckets < s.capacity → ∀ y ∈ xs, y ∈ allIds s.buckets) ∧
  (∀ p ∈ entriesWithCount s.buckets,
    xs.count p.2.id ≤ p.1 ∧ p.1 ≤ xs.count p.2.id + p.2.error) ∧
  (∀ y, y ∉ allIds s.buckets → xs.count y ≤ minCount s.buckets)

theorem inv_add_case_a (cap : Nat) (bs : List (Nat × List SSEntry)) (xs : List Nat)
    (x c : Nat) (e : SSEntry) (hInv : Inv xs ⟨cap, bs⟩)
    (hfx : findEntry bs x = some (c, e)) :
    Inv (xs ++ [x]) ⟨cap, insertEntry (removeEntry bs x) (c + 1) e⟩ := by
  obtain ⟨⟨hsort, hne, hnd, hkey1⟩, hsize, hfill, hbound, huntr⟩ := hInv
  dsimp only at hsort hne hnd hkey1 hsize hfill hbound huntr
  obtain ⟨hmem, hid⟩ := findEntry_some_mem hfx
  have hpermR := entriesWithCount_removeEntry hfx hnd
  have hpermI := entriesWithCount_insertEntry (removeEntry bs x) (c + 1) e
  have hidsR : (allIds bs).Perm (e.id :: allIds (removeEntry bs x)) := by
    rw [allIds_eq_map, allIds_eq_map]
    exact hpermR.map _
  have hidsI : (allIds (insertEntry (removeEntry bs x) (c + 1) e)).Perm
      (e.id :: allIds (removeEntry bs x)) := by
    rw [allIds_eq_map, allIds_eq_map]
    exact hpermI.map _
  have hndR : (e.id :: allIds (removeEntry bs x)).Nodup := hidsR.nodup hnd
  have hsortR : (keys (removeEntry bs x)).Pairwise (· < ·) :=
    hsort.sublist (keys_removeEntry_sublist bs x)
  have hsizeEq : bucketsSize (insertEntry (removeEntry bs x) (c + 1) e)
      = bucketsSize bs := by
    rw [bucketsSize_eq_length, bucketsSize_eq_length, hpermI.length_eq,
      hpermR.length_eq]
    simp
  have hkeysub : ∀ k ∈ keys (removeEntry bs x), k ∈ keys bs :=
    fun k hk => (keys_removeEntry_sublist bs x).subset hk
  have hxmem : x ∈ allIds (insertEntry (removeEntry bs x) (c + 1) e) := by
    rw [hidsI.mem_iff, ← hid]
    exact List.mem_cons_self _ _
  have hidsEquiv : ∀ y, y ∈ allIds (insertEntry (removeEntry bs x) (c + 1) e)
      ↔ y ∈ allIds bs := by
    intro y
    rw [hidsI.mem_iff, hidsR.mem_iff]
  refine ⟨⟨?_, ?_, ?_, ?_⟩, ?_, ?_, ?_, ?_⟩
  · exact keys_insertEntry_pairwise e hsortR
  · exact nonempty_insertEntry (nonempty_removeEntry hne)
  · exact hidsI.symm.nodup hndR
  · intro k hk
    rcases mem_keys_insertEntry hk with rfl | hk
    · omega
    · exact hkey1 k (hkeysub k hk)
  · simpa [hsizeEq] using hsize
  · intro hlt y hy
    rw [hsizeEq] at hlt
    rcases List.mem_append.1 hy with hy | hy
    · exact (hidsEquiv y).2 (hfill hlt y hy)
    · rcases List.mem_singleton.1 hy with rfl
      exact hxmem
  · intro p hp
    rcases List.mem_cons.1 (hpermI.mem_iff.1 hp) with rfl | hp'
    · obtain ⟨hb1, hb2⟩ := hbound (c, e) hmem
      dsimp only at hb1 hb2 ⊢
      rw [count_append_single, hid, if_pos rfl]
      rw [hid] at hb1 hb2
      exact ⟨by omega, by omega⟩
    · have hpbs : p ∈ entriesWithCount bs :=
        hpermR.symm.mem_iff.1 (List.mem_cons_of_mem _ hp')
      have hpid : p.2.id ≠ x := by
        intro hpx
        have h1 : p.2.id ∈ allIds (removeEntry bs x) := by
          rw [allIds_eq_map]
          exact List.mem_map_of_mem _ hp'
        have h2 : e.id ∉ allIds (removeEntry bs x) := (List.nodup_cons.1 hndR).1
        rw [hid] at h2
        exact h2 (hpx ▸ h1)
      rw [count_append_single, if_neg hpid]
      simpa using hbound p hpbs
  · intro y hy
    have hyx : y ≠ x := fun h => hy (h ▸ hxmem)
    have hybs : y ∉ allIds bs := fun h => hy ((hidsEquiv y).2 h)
    rw [count_append_single, if_neg hyx]
    have h1 : xs.count y ≤ minCount bs := huntr y hybs
    have h2 : minCount bs ≤ minCount (insertEntry (removeEntry bs x) (c + 1) e) := by
      refine le_minCount_of_keys (insertEntry_ne_nil _ _ _) ?_
      intro k hk
      rcases mem_keys_insertEntry hk with rfl | hk
      · have := minCount_le_keys hsort c (key_mem_of_entry_mem hmem)
        omega
      · exact minCount_le_keys hsort k (hkeysub k hk)
    simpa using Nat.le_trans h1 h2

theorem inv_add_case_b (cap : Nat) (bs : List (Nat × List SSEntry)) (xs : List Nat)
    (x : Nat) (hInv : Inv xs ⟨cap, bs⟩) (hfx : findEntry bs x = none)
    (hlt : bucketsSize bs < cap) :
    Inv (xs ++ [x]) ⟨cap, insertEntry bs 1 ⟨x, 0⟩⟩ := by
  obtain ⟨⟨hsort, hne, hnd, hkey1⟩, hsize, hfill, hbound, huntr⟩ := hInv
  dsimp only at hsort hne hnd hkey1 hsize hfill hbound huntr
  have hxnot : x ∉ allIds bs := (findEntry_eq_none_iff bs x).1 hfx
  have hcnt0 : xs.count x = 0 := by
    by_contra h
    have hx : x ∈ xs := List.count_pos_iff.1 (Nat.pos_of_ne_zero h)
    exact hxnot (hfill hlt x hx)
  have hpermI := entriesWithCount_insertEntry bs 1 ⟨x, 0⟩
  have hidsI : (allIds (insertEntry bs 1 ⟨x, 0⟩)).Perm (x :: allIds bs) := by
    rw [allIds_eq_map, allIds_eq_map]
    exact hpermI.map _
  have hsizeEq : bucketsSize (insertEntry bs 1 ⟨x, 0⟩) = bucketsSize bs + 1 := by
    rw [bucketsSize_eq_length, bucketsSize_eq_length, hpermI.length_eq]
    simp
  refine ⟨⟨?_, ?_, ?_, ?_⟩, ?_, ?_, ?_, ?_⟩
  · exact keys_insertEntry_pairwise _ hsort
  · exact nonempty_insertEntry hne
  · exact hidsI.symm.nodup (List.nodup_cons.2 ⟨hxnot, hnd⟩)
  · intro k hk
    rcases mem_keys_insertEntry hk with rfl | hk
    · exact Nat.le_refl 1
    · exact hkey1 k hk
  · dsimp only
    omega
  · intro hlt' y hy
    dsimp only at hlt' ⊢
    rw [hsizeEq] at hlt'
    rw [hidsI.mem_iff, List.mem_cons]
    rcases List.mem_append.1 hy with hy | hy
    · exact Or.inr (hfill (by omega) y hy)
    · rcases List.mem_singleton.1 hy with rfl
      exact Or.inl rfl
  · intro p hp
    dsimp only at hp
    rcases List.mem_cons.1 (hpermI.mem_iff.1 hp) with rfl | hp'
    · dsimp only
      rw [count_append_single, if_pos rfl, hcnt0]
      exact ⟨by omega, by omega⟩
    · have hpid : p.2.id ≠ x := by
        intro hpx
        refine hxnot (hpx ▸ ?_)
        rw [allIds_eq_map]
        exact List.mem_map_of_mem _ hp'
      rw [count_append_single, if_neg hpid]
      simpa using hbound p hp'
  · intro y hy
    dsimp only at hy ⊢
    rw [hidsI.mem_iff, List.mem_cons] at hy
    push_neg at hy
    obtain ⟨hyx, hybs⟩ := hy
    rw [count_append_single, if_neg hyx]
    have hy0 : xs.count y = 0 := by
      by_contra h
      exact hybs (hfill hlt y (List.count_pos_iff.1 (Nat.pos_of_ne_zero h)))
    simp [hy0]

theorem inv_add_case_c_core (cap : Nat) (xs : List Nat) (x m : Nat) (e0 : SSEntry)
    (bs0 bs' : List (Nat × List SSEntry))
    (hbs0 : entriesWithCount bs0 = (m, e0) :: entriesWithCount bs')
    (hkeysub : List.Sublist (keys bs') (keys bs0))
    (hne' : ∀ b ∈ bs', b.2 ≠ [])
    (hmin : minCount bs0 = m)
    (hInv : Inv xs ⟨cap, bs0⟩)
    (hfx : findEntry bs0 x = none)
    (hge : ¬ bucketsSize bs0 < cap) :
    Inv (xs ++ [x]) ⟨cap, insertEntry bs' (m + 1) ⟨x, m⟩⟩ := by
  obtain ⟨⟨hsort, hne, hnd, hkey1⟩, hsize, hfill, hbound, huntr⟩ := hInv
  dsimp only at hsort hne hnd hkey1 hsize hfill hbound huntr
  have hfull : bucketsSize bs0 = cap := Nat.le_antisymm hsize (Nat.not_lt.1 hge)
  have hxnot : x ∉ allIds bs0 := (findEntry_eq_none_iff bs0 x).1 hfx
  have hids0 : allIds bs0 = e0.id :: allIds bs' := by
    rw [allIds_eq_map, hbs0, List.map_cons]
    rfl
  have hnd2 : (e0.id :: allIds bs').Nodup := hids0 ▸ hnd
  obtain ⟨he0notin, hnd'⟩ := List.nodup_cons.1 hnd2
  have hxne0 : x ≠ e0.id := by
    intro h
    exact hxnot (by rw [hids0, h]; exact List.mem_cons_self _ _)
  have hxnot' : x ∉ allIds bs' := by
    intro h
    exact hxnot (by rw [hids0]; exact List.mem_cons_of_mem _ h)
  have hsort' : (keys bs').Pairwise (· < ·) := hsort.sublist hkeysub
  have hpermI := entriesWithCount_insertEntry bs' (m + 1) ⟨x, m⟩
  have hidsI : (allIds (insertEntry bs' (m + 1) ⟨x, m⟩)).Perm (x :: allIds bs') := by
    rw [allIds_eq_map, allIds_eq_map]
    exact hpermI.map _
  have hszI : bucketsSize (insertEntry bs' (m + 1) ⟨x, m⟩) = bucketsSize bs0 := by
    rw [bucketsSize_eq_length, bucketsSize_eq_length, hpermI.length_eq, hbs0]
    simp
  have hkeylow : ∀ k ∈ keys bs0, m ≤ k := by
    intro k hk
    have := minCount_le_keys hsort k hk
    omega
  have hminI : m ≤ minCount (insertEntry bs' (m + 1) ⟨x, m⟩) := by
    refine le_minCount_of_keys (insertEntry_ne_nil _ _ _) ?_
    intro k hk
    rcases mem_keys_insertEntry hk with rfl | hk
    · omega
    · exact hkeylow k (hkeysub.subset hk)
  have hcntx : xs.count x ≤ m := by
    have h1 := huntr x hxnot
    omega
  refine ⟨⟨?_, ?_, ?_, ?_⟩, ?_, ?_, ?_, ?_⟩
  · exact keys_insertEntry_pairwise _ hsort'
  · exact nonempty_insertEntry hne'
  · exact hidsI.symm.nodup (List.nodup_cons.2 ⟨hxnot', hnd'⟩)
  · intro k hk
    rcases mem_keys_insertEntry hk with rfl | hk
    · omega
    · exact hkey1 k (hkeysub.subset hk)
  · dsimp only
    omega
  · intro hlt'
    dsimp only at hlt'
    omega
  · intro p hp
    dsimp only at hp
    rcases List.mem_cons.1 (hpermI.mem_iff.1 hp) with rfl | hp'
    · dsimp only
      rw [count_append_single, if_pos rfl]
      exact ⟨by omega, by omega⟩
    · have hpbs0 : p ∈ entriesWithCount bs0 := by
        rw [hbs0]
        exact List.mem_cons_of_mem _ hp'
      have hpid : p.2.id ≠ x := by
        intro hpx
        refine hxnot' (hpx ▸ ?_)
        rw [allIds_eq_map]
        exact List.mem_map_of_mem _ hp'
      rw [count_append_single, if_neg hpid]
      simpa using hbound p hpbs0
  · intro y hy
    dsimp only at hy ⊢
    have hyx : y ≠ x := by
      intro h
      subst h
      refine hy ?_
      rw [hidsI.mem_iff]
      exact List.mem_cons_self _ _
    have hynot' : y ∉ allIds bs' := by
      intro h
      exact hy (by rw [hidsI.mem_iff]; exact List.mem_cons_of_mem _ h)
    rw [count_append_single, if_neg hyx]
    have hym : xs.count y ≤ m := by
      by_cases hye0 : y = e0.id
      · subst hye0
        have hmem0 : (m, e0) ∈ entriesWithCount bs0 := by
          rw [hbs0]
          exact List.mem_cons_self _ _
        have := (hbound (m, e0) hmem0).1
        simpa using this
      · have hynot0 : y ∉ allIds bs0 := by
          rw [hids0]
          intro h
          rcases List.mem_cons.1 h with h | h
          · exact hye0 h
          · exact hynot' h
        have := huntr y hynot0
        omega
    omega

theorem inv_add_case_c (cap : Nat) (xs : List Nat) (x m : Nat) (e0 : SSEntry)
    (es0' : List SSEntry) (rest : List (Nat × List SSEntry))
    (hInv : Inv xs ⟨cap, (m, e0 :: es0') :: rest⟩)
    (hfx : findEntry ((m, e0 :: es0') :: rest) x = none)
    (hge : ¬ bucketsSize ((m, e0 :: es0') :: rest) < cap) :
    Inv (xs ++ [x])
      ⟨cap, insertEntry
        (match es0' with
          | [] => rest
          | e1 :: es1 => (m, e1 :: es1) :: rest) (m + 1) ⟨x, m⟩⟩ := by
  have hne := hInv.1.2.1
  cases es0' with
  | nil =>
    refine inv_add_case_c_core cap xs x m e0 _ rest ?_ ?_ ?_ ?_ hInv hfx hge
    · simp
    · rw [keys_cons]
      exact List.sublist_cons_self _ _
    · exact fun b hb => hne b (List.mem_cons_of_mem _ hb)
    · rfl
  | cons e1 es1 =>
    refine inv_add_case_c_core cap xs x m e0 _ ((m, e1 :: es1) :: rest) ?_ ?_ ?_ ?_
      hInv hfx hge
    · simp
    · rw [keys_cons, keys_cons]
    · intro b hb
      rcases List.mem_cons.1 hb with rfl | hb
      · simp
      · exact hne b (List.mem_cons_of_mem _ hb)
    · rfl

/-- Processing one more observation preserves the Space-Saving invariant. -/
theorem add_preserves_Inv {s : StreamSummary} {xs : List Nat} (x : Nat)
    (hcap : 1 ≤ s.capacity) (h : Inv xs s) : Inv (xs ++ [x]) (s.add x) := by
  obtain ⟨cap, bs⟩ := s
  dsimp only at hcap
  unfold StreamSummary.add
  dsimp only
  cases hfx : findEntry bs x with
  | some ce =>
    obtain ⟨c, e⟩ := ce
    exact inv_add_case_a cap bs xs x c e h hfx
  | none =>
    by_cases hlt : bucketsSize bs < cap
    · rw [if_pos hlt]
      exact inv_add_case_b cap bs xs x h hfx hlt
    · rw [if_neg hlt]
      cases bs with
      | nil =>
        exfalso
        have h0 : bucketsSize ([] : List (Nat × List SSEntry)) = 0 := rfl
        omega
      | cons b rest =>
        obtain ⟨m, es0⟩ := b
        have hes0 : es0 ≠ [] := h.1.2.1 (m, es0) (List.mem_cons_self _ _)
        obtain ⟨e0, es0', rfl⟩ := List.exists_cons_of_ne_nil hes0
        cases es0' with
        | nil => exact inv_add_case_c cap xs x m e0 [] rest h hfx hlt
        | cons e1 es1 => exact inv_add_case_c cap xs x m e0 (e1 :: es1) rest h hfx hlt

theorem add_capacity (s : StreamSummary) (x : Nat) : (s.add x).capacity = s.capacity := by
  obtain ⟨cap, bs⟩ := s
  unfold StreamSummary.add
  dsimp only
  cases hfx : findEntry bs x with
  | some ce =>
    obtain ⟨c, e⟩ := ce
    rfl
  | none =>
    by_cases hlt : bucketsSize bs < cap
    · rw [if_pos hlt]
    · rw [if_neg hlt]
      cases bs with
      | nil => rfl
      | cons b rest =>
        obtain ⟨m, es⟩ := b
        rfl

theorem process_append_single (cap : Nat) (xs : List Nat) (x : Nat) :
    process cap (xs ++ [x]) = (process cap xs).add x := by
  rw [process, process, List.foldl_append]
  rfl

theorem process_capacity (cap : Nat) (xs : List Nat) : (process cap xs).capacity = cap := by
  induction xs using List.reverseRecOn with
  | nil => rfl
  | append_singleton l a ih => rw [process_append_single, add_capacity, ih]

/-- The Space-Saving invariant holds of every state reached from a fresh
summary. -/
theorem process_Inv (cap : Nat) (hcap : 1 ≤ cap) (xs : List Nat) :
    Inv xs (process cap xs) := by
  induction xs using List.reverseRecOn with
  | nil =>
    refine ⟨⟨?_, ?_, ?_, ?_⟩, ?_, ?_, ?_, ?_⟩ <;>
      simp [process, bucketsSize, minCount, WF]
  | append_singleton l a ih =>
    rw [process_append_single]
    exact add_preserves_Inv a (by rw [process_capacity]; exact hcap) ih

theorem findEntry_insertEntry_self (bs : List (Nat × List SSEntry)) (c : Nat)
    (e : SSEntry) (hnot : e.id ∉ allIds bs) :
    findEntry (insertEntry bs c e) e.id = some (c, e) := by
  induction bs with
  | nil =>
    rw [insertEntry, findEntry]
    simp
  | cons b rest ih =>
    obtain ⟨c', es⟩ := b
    rw [allIds_cons] at hnot
    have hnotes : e.id ∉ es.map SSEntry.id := fun h => hnot (List.mem_append.2 (Or.inl h))
    have hnotrest : e.id ∉ allIds rest := fun h => hnot (List.mem_append.2 (Or.inr h))
    have hfindes : es.find? (fun e' => e'.id == e.id) = none := by
      rw [List.find?_eq_none]
      intro e' he' hbe
      exact hnotes (by
        have : e'.id = e.id := by simpa using hbe
        exact this ▸ List.mem_map_of_mem SSEntry.id he')
    rw [insertEntry]
    split_ifs with h1 h2
    · rw [findEntry]
      simp
    · subst h2
      rw [findEntry]
      have : (es ++ [e]).find? (fun e' => e'.id == e.id) = some e := by
        rw [List.find?_append, hfindes]
        simp
      rw [this]
    · rw [findEntry, hfindes]
      exact ih hnotrest

/-- Under the reachable-state invariant, an `add` that evicts (identifier
unseen, summary full) admits the new identifier with count `m + 1` and error
`m`, `m` being the minimal count at the moment of eviction. -/
theorem add_evict_findEntry (s : StreamSummary) (x : Nat)
    (hwfne : ∀ b ∈ s.buckets, b.2 ≠ []) (hfx : findEntry s.buckets x = none)
    (hge : ¬ bucketsSize s.buckets < s.capacity) (hnonnil : s.buckets ≠ []) :
    findEntry (s.add x).buckets x
      = some (minCount s.buckets + 1, ⟨x, minCount s.buckets⟩) := by
  obtain ⟨cap, bs⟩ := s
  dsimp only at hwfne hfx hge hnonnil ⊢
  have hxnot : x ∉ allIds bs := (findEntry_eq_none_iff bs x).1 hfx
  cases bs with
  | nil => exact absurd rfl hnonnil
  | cons b rest =>
    obtain ⟨m, es0⟩ := b
    have hes0 : es0 ≠ [] := hwfne (m, es0) (List.mem_cons_self _ _)
    obtain ⟨e0, es0', rfl⟩ := List.exists_cons_of_ne_nil hes0
    unfold StreamSummary.add
    dsimp only
    rw [hfx, if_neg hge]
    have hmin : minCount ((m, e0 :: es0') :: rest) = m := rfl
    rw [hmin]
    have hxtail : ∀ bs' : List (Nat × List SSEntry),
        allIds ((m, e0 :: es0') :: rest) = e0.id :: allIds bs' → x ∉ allIds bs' := by
      intro bs' heq hmem
      exact hxnot (by rw [heq]; exact List.mem_cons_of_mem _ hmem)
    cases es0' with
    | nil =>
      exact findEntry_insertEntry_self rest (m + 1) ⟨x, m⟩ (hxtail rest (by simp))
    | cons e1 es1 =>
      exact findEntry_insertEntry_self ((m, e1 :: es1) :: rest) (m + 1) ⟨x, m⟩
        (hxtail _ (by simp))

/-- C1: for every observation sequence, every tracked entry's true occurrence
count lies between its estimated count minus its error and its estimated
count; and when a full summary admits an unseen identifier by
eviction-replacement, the new entry is inserted with count `m + 1` and error
`m`, where `m` is the minimal count among all buckets at the eviction (the
minimum over every bucket key, as the last conjunct states). -/
theorem stream_summary_error_bound (cap : Nat) (xs : List Nat) (hcap : 1 ≤ cap) :
    (∀ p ∈ entriesWithCount (process cap xs).buckets,
      xs.count p.2.id ≤ p.1 ∧ p.1 ≤ xs.count p.2.id + p.2.error) ∧
    (∀ x, findEntry (process cap xs).buckets x = none →
      bucketsSize (process cap xs).buckets = cap →
      findEntry ((process cap xs).add x).buckets x
          = some (minCount (process cap xs).buckets + 1,
              ⟨x, minCount (process cap xs).buckets⟩) ∧
        ∀ k ∈ keys (process cap xs).buckets, minCount (process cap xs).buckets ≤ k) := by
  obtain ⟨⟨hsort, hne, hnd, hkey1⟩, hsize, hfill, hbound, huntr⟩ := process_Inv cap hcap xs
  refine ⟨hbound, ?_⟩
  intro x hfx hfull
  have hge : ¬ bucketsSize (process cap xs).buckets < (process cap xs).capacity := by
    rw [process_capacity]
    omega
  have hnonnil : (process cap xs).buckets ≠ [] := by
    intro h0
    rw [h0] at hfull
    have : bucketsSize ([] : List (Nat × List SSEntry)) = 0 := rfl
    omega
  exact ⟨add_evict_findEntry (process cap xs) x hne hfx hge hnonnil,
    minCount_le_keys hsort⟩

/-- Witness for the C1 theorem: capacity 2, observations `[1, 2, 3]`
(scenario B). -/
theorem stream_summary_error_bound_witness :
    1 ≤ 2 ∧
      ((∀ p ∈ entriesWithCount (process 2 [1, 2, 3]).buckets,
        List.count p.2.id [1, 2, 3] ≤ p.1 ∧ p.1 ≤ List.count p.2.id [1, 2, 3] + p.2.error) ∧
      (∀ x, findEntry (process 2 [1, 2, 3]).buckets x = none →
        bucketsSize (process 2 [1, 2, 3]).buckets = 2 →
        findEntry ((process 2 [1, 2, 3]).add x).buckets x
            = some (minCount (process 2 [1, 2, 3]).buckets + 1,
                ⟨x, minCount (process 2 [1, 2, 3]).buckets⟩) ∧
          ∀ k ∈ keys (process 2 [1, 2, 3]).buckets,
            minCount (process 2 [1, 2, 3]).buckets ≤ k)) :=
  ⟨by decide, stream_summary_error_bound 2 [1, 2, 3] (by decide)⟩

/-! ## Embedding of `aggregate_stats` (stats/stats.py, lines 79-98)

One worker's loop: `for offset in range(min_offset, offset_upper_bound,
limit)` — the `range` captures the original `limit` as its step, although the
loop body can clamp the `limit` variable for the final partial unit. At each
iteration the shared `quit_now` flag is polled (`if quit_now: break`), then
`furnish_request` is called; a `RequestError` (the retry budget was
exhausted) is caught and the unit skipped, any other exception propagates;
on success the page is merged into both summaries under the lock. -/

/-- Merging one fetched page into the two summaries (lines 90-93). -/
def mergeFoods (foods : List Food) (s : StreamSummary × StreamSummary) :
    StreamSummary × StreamSummary :=
  foods.foldl (fun t f => (t.1.add f.food_id, t.2.add f.food_category_id)) s

/-- The clamp of the final partial unit (lines 86-87): `if offset + limit >
offset_upper_bound: limit = offset_upper_bound - offset`. -/
def clampLimit (ub o lim : Nat) : Nat :=
  if ub < o + lim then ub - o else lim

/-- The worker loop of `aggregate_stats` over the precomputed offset list.
`quit k` is the value of the shared `quit_now` flag as polled at the start of
the `k`-th iteration; `furnish` is the decorated `furnish_request`. Returns
the outcome (`.error` only for an uncaught exception) and the list of offsets
for which a fetch was issued. -/
def aggLoop (furnish : Nat → Nat → Except FetchError (List Food)) (quit : Nat → Bool) :
    List Nat → Nat → Nat → StreamSummary × StreamSummary → Nat →
      Except FetchError (StreamSummary × StreamSummary) × List Nat
  | [], _, _, s, _ => (.ok s, [])
  | o :: os, ub, lim, s, k =>
    if quit k then (.ok s, [])
    else
      match furnish o (clampLimit ub o lim) with
      | .error (.requestError _ _ _) =>
        let r := aggLoop furnish quit os ub (clampLimit ub o lim) s (k + 1)
        (r.1, o :: r.2)
      | .error .keyError => (.error .keyError, [o])
      | .ok foods =>
        let r := aggLoop furnish quit os ub (clampLimit ub o lim)
          (mergeFoods foods s) (k + 1)
        (r.1, o :: r.2)

/-- Python's `range(min_offset, offset_upper_bound, limit)`. -/
def offsetRange (minOff ub limit : Nat) : List Nat :=
  List.range' minOff ((ub - minOff + limit - 1) / limit) limit

/-- `aggregate_stats` for one unit of submitted work. -/
def aggregate_stats (furnish : Nat → Nat → Except FetchError (List Food))
    (quit : Nat → Bool) (minOff ub limit : Nat) (s : StreamSummary × StreamSummary) :
    Except FetchError (StreamSummary × StreamSummary) × List Nat :=
  aggLoop furnish quit (offsetRange minOff ub limit) ub limit s 0

/-- The same fetcher with every failure replaced by an empty page. -/
def errorsAsEmpty (furnish : Nat → Nat → Except FetchError (List Food)) :
    Nat → Nat → Except FetchError (List Food) :=
  fun o l =>
    match furnish o l with
    | .error _ => .ok []
    | .ok v => .ok v

theorem aggLoop_errorsAsEmpty (furnish : Nat → Nat → Except FetchError (List Food))
    (quit : Nat → Bool) (units : List Nat) (ub : Nat)
    (hreq : ∀ o l, furnish o l ≠ .error .keyError) :
    ∀ lim s k, aggLoop furnish quit units ub lim s k
      = aggLoop (errorsAsEmpty furnish) quit units ub lim s k := by
  induction units with
  | nil => intro lim s k; rfl
  | cons o os ih =>
    intro lim s k
    rw [aggLoop, aggLoop]
    by_cases hq : quit k = true
    · rw [if_pos hq, if_pos hq]
    · rw [if_neg hq, if_neg hq]
      cases hf : furnish o (clampLimit ub o lim) with
      | ok v =>
        have hf' : errorsAsEmpty furnish o (clampLimit ub o lim)
            = .ok v := by rw [errorsAsEmpty, hf]
        rw [hf']
        dsimp only
        rw [ih]
      | error err =>
        cases err with
        | keyError => exact absurd hf (hreq o _)
        | requestError e o' l' =>
          have hf' : errorsAsEmpty furnish o (clampLimit ub o lim)
              = .ok [] := by rw [errorsAsEmpty, hf]
          rw [hf']
          dsimp only [mergeFoods, List.foldl]
          rw [ih]

theorem aggLoop_ok_of_no_error (furnish : Nat → Nat → Except FetchError (List Food))
    (quit : Nat → Bool) (units : List Nat) (ub : Nat)
    (hok : ∀ o l, ∃ v, furnish o l = .ok v) :
    ∀ lim s k, ∃ s', (aggLoop furnish quit units ub lim s k).1 = .ok s' := by
  induction units with
  | nil => intro lim s k; exact ⟨s, rfl⟩
  | cons o os ih =>
    intro lim s k
    rw [aggLoop]
    by_cases hq : quit k = true
    · rw [if_pos hq]
      exact ⟨s, rfl⟩
    · rw [if_neg hq]
      obtain ⟨v, hv⟩ := hok o (clampLimit ub o lim)
      rw [hv]
      exact ih _ _ _

theorem aggLoop_all_fail (quit : Nat → Bool) (ep : String) (units : List Nat)
    (ub : Nat) : ∀ lim s k,
      (aggLoop (fun o l => .error (.requestError ep o l)) quit units ub lim s k).1
        = .ok s := by
  induction units with
  | nil => intro lim s k; rfl
  | cons o os ih =>
    intro lim s k
    rw [aggLoop]
    by_cases hq : quit k = true
    · rw [if_pos hq]
    · rw [if_neg hq]
      exact ih _ _ _

/-- C5: a unit of fetch work whose request fails permanently (the retried
`RequestError`) is skipped and never fatal. Provided `furnish_request` only
fails with `RequestError` (which is what exhausting the retries raises), the
loop's result is the same as if every failed unit had returned an empty page
— the summaries are untouched by the failed unit and the loop continues with
the next offset; the outcome is always `.ok` (no exception reaches the
caller); and if every unit fails, the summaries come back exactly as they
went in. -/
theorem aggregate_stats_skips_failed_units
    (furnish : Nat → Nat → Except FetchError (List Food)) (quit : Nat → Bool)
    (minOff ub limit : Nat) (s : StreamSummary × StreamSummary) (ep : String)
    (hreq : ∀ o l, furnish o l ≠ .error .keyError) :
    aggregate_stats furnish quit minOff ub limit s
        = aggregate_stats (errorsAsEmpty furnish) quit minOff ub limit s ∧
      (∃ s', (aggregate_stats furnish quit minOff ub limit s).1 = .ok s') ∧
      (aggregate_stats (fun o l => .error (.requestError ep o l)) quit minOff ub limit s).1
        = .ok s := by
  refine ⟨aggLoop_errorsAsEmpty furnish quit _ ub hreq _ s 0, ?_, ?_⟩
  · rw [aggregate_stats, aggLoop_errorsAsEmpty furnish quit _ ub hreq _ s 0]
    refine aggLoop_ok_of_no_error _ quit _ ub ?_ _ s 0
    intro o l
    rw [errorsAsEmpty]
    cases furnish o l with
    | ok v => exact ⟨v, rfl⟩
    | error e => exact ⟨[], rfl⟩
  · exact aggLoop_all_fail quit ep _ ub _ s 0

/-- Witness for the C5 theorem: a fetcher that always fails with
`RequestError` leaves a pair of fresh summaries exactly as they were. -/
theorem aggregate_stats_skips_failed_units_witness :
    aggregate_stats (fun o l => .error (.requestError "ep" o l)) (fun _ => false)
          123 456 100 (⟨10, []⟩, ⟨10, []⟩)
        = aggregate_stats
            (errorsAsEmpty (fun o l => .error (.requestError "ep" o l)))
            (fun _ => false) 123 456 100 (⟨10, []⟩, ⟨10, []⟩) ∧
      (∃ s', (aggregate_stats (fun o l => .error (.requestError "ep" o l))
          (fun _ => false) 123 456 100 (⟨10, []⟩, ⟨10, []⟩)).1 = .ok s') ∧
      (aggregate_stats (fun o l => .error (.requestError "ep" o l)) (fun _ => false)
          123 456 100 (⟨10, []⟩, ⟨10, []⟩)).1 = .ok (⟨10, []⟩, ⟨10, []⟩) :=
  aggregate_stats_skips_failed_units (fun o l => .error (.requestError "ep" o l))
    (fun _ => false) 123 456 100 (⟨10, []⟩, ⟨10, []⟩) "ep"
    (fun o l h => by exact absurd h (by simp))

/-- Number of leading polls of the shared flag that come back `false`,
starting at poll index `k`, among the next `n` polls: the number of units the
worker starts. -/
def countFalse (quit : Nat → Bool) : Nat → Nat → Nat
  | _, 0 => 0
  | k, n + 1 => if quit k then 0 else countFalse quit (k + 1) n + 1

theorem countFalse_le {quit : Nat → Bool} (n : Nat) :
    ∀ k i, quit (k + i) = true → countFalse quit k n ≤ i := by
  induction n with
  | zero => intro k i _; exact Nat.zero_le i
  | succ n ih =>
    intro k i hq
    rw [countFalse]
    by_cases hk : quit k = true
    · rw [if_pos hk]
      exact Nat.zero_le i
    · rw [if_neg hk]
      cases i with
      | zero => exact absurd (by simpa using hq) hk
      | succ i =>
        have : quit ((k + 1) + i) = true := by
          have h : (k + 1) + i = k + (i + 1) := by omega
          rw [h]
          exact hq
        exact Nat.succ_le_succ (ih (k + 1) i this)

theorem aggLoop_quit_take (furnish : Nat → Nat → Except FetchError (List Food))
    (quit : Nat → Bool) (units : List Nat) (ub : Nat) :
    ∀ lim s k, aggLoop furnish quit units ub lim s k
      = aggLoop furnish (fun _ => false)
          (units.take (countFalse quit k units.length)) ub lim s k := by
  induction units with
  | nil => intro lim s k; rfl
  | cons o os ih =>
    intro lim s k
    rw [List.length_cons, countFalse]
    by_cases hq : quit k = true
    · rw [if_pos hq, aggLoop, if_pos hq]
      rfl
    · rw [if_neg hq, List.take_succ_cons, aggLoop, aggLoop, if_neg hq]
      have hfalse : (fun (_ : Nat) => false) k = true ↔ False := by simp
      rw [if_neg (by simp : ¬ ((fun (_ : Nat) => false) k = true))]
      cases hf : furnish o (clampLimit ub o lim) with
      | ok v =>
        dsimp only
        rw [ih]
      | error err =>
        cases err with
        | keyError => rfl
        | requestError e o' l' =>
          dsimp only
          rw [ih]

theorem aggLoop_trace_no_quit (furnish : Nat → Nat → Except FetchError (List Food))
    (units : List Nat) (ub : Nat) (hreq : ∀ o l, furnish o l ≠ .error .keyError) :
    ∀ lim s k, (aggLoop furnish (fun _ => false) units ub lim s k).2 = units := by
  induction units with
  | nil => intro lim s k; rfl
  | cons o os ih =>
    intro lim s k
    rw [aggLoop, if_neg (by simp : ¬ ((fun (_ : Nat) => false) k = true))]
    cases hf : furnish o (clampLimit ub o lim) with
    | ok v =>
      dsimp only
      rw [ih _ _ _]
    | error err =>
      cases err with
      | keyError => exact absurd hf (hreq o _)
      | requestError e o' l' =>
        dsimp only
        rw [ih _ _ _]

/-- C7: cancellation is polled only between units of fetch work. With the
shared `quit_now` flag monotone (once set it stays set), the worker's run
equals the uninterrupted run over exactly the units whose preceding poll saw
the flag unset — each such unit, including the one in flight when the flag
went up, completes and is merged, and nothing merged is lost; the fetched
offsets are exactly that prefix; and once the flag is set at poll `j`, no
fetch is started at or past iteration `j`. -/
theorem aggregate_stats_cancellation
    (furnish : Nat → Nat → Except FetchError (List Food)) (quit : Nat → Bool)
    (minOff ub limit : Nat) (s : StreamSummary × StreamSummary)
    (hreq : ∀ o l, furnish o l ≠ .error .keyError)
    (hmono : ∀ j l, j ≤ l → quit j = true → quit l = true) :
    aggregate_stats furnish quit minOff ub limit s
        = aggLoop furnish (fun _ => false)
            ((offsetRange minOff ub limit).take
              (countFalse quit 0 (offsetRange minOff ub limit).length)) ub limit s 0 ∧
      (aggregate_stats furnish quit minOff ub limit s).2
        = (offsetRange minOff ub limit).take
            (countFalse quit 0 (offsetRange minOff ub limit).length) ∧
      (∀ j, quit j = true →
        countFalse quit 0 (offsetRange minOff ub limit).length ≤ j) := by
  refine ⟨aggLoop_quit_take furnish quit _ ub _ s 0, ?_, ?_⟩
  · rw [aggregate_stats, aggLoop_quit_take furnish quit _ ub _ s 0]
    exact aggLoop_trace_no_quit furnish _ ub hreq _ s 0
  · intro j hj
    exact countFalse_le _ 0 j (by simpa using hj)

/-- Witness for the C7 theorem: the flag goes up from poll 2 onwards. -/
theorem aggregate_stats_cancellation_witness :
    aggregate_stats (fun _ _ => .ok []) (fun k => 2 ≤ k) 0 500 100 (⟨10, []⟩, ⟨10, []⟩)
        = aggLoop (fun _ _ => .ok []) (fun _ => false)
            ((offsetRange 0 500 100).take
              (countFalse (fun k => 2 ≤ k) 0 (offsetRange 0 500 100).length))
            500 100 (⟨10, []⟩, ⟨10, []⟩) 0 ∧
      (aggregate_stats (fun _ _ => .ok []) (fun k => 2 ≤ k) 0 500 100
          (⟨10, []⟩, ⟨10, []⟩)).2
        = (offsetRange 0 500 100).take
            (countFalse (fun k => 2 ≤ k) 0 (offsetRange 0 500 100).length) ∧
      (∀ j, (fun k => decide (2 ≤ k)) j = true →
        countFalse (fun k => 2 ≤ k) 0 (offsetRange 0 500 100).length ≤ j) :=
  aggregate_stats_cancellation (fun _ _ => .ok []) (fun k => 2 ≤ k) 0 500 100
    (⟨10, []⟩, ⟨10, []⟩) (fun o l h => by exact absurd h (by simp))
    (fun j l hjl hj => by
      simp only [decide_eq_true_eq] at hj ⊢
      omega)

end Stats
